import Mathlib

/-!
# Verification of `transpilation_example.c`

A shallow embedding of the bounded range iterator (`Range_new`, `Range_next`),
of the recursive `fibonacci` and of the driver loop of `main`.

`uint32_t` values are natural numbers below `2 ^ 32`; every arithmetic
operation of the source that can wrap is written with an explicit reduction
modulo `2 ^ 32`.
-/

namespace Opyl

/-! ## Machine integers -/

/-- The number of values of a `uint32_t`, `2 ^ 32`. -/
def UINT32_MOD : Nat := 4294967296

/-- Addition of two `uint32_t` values: the sum reduced modulo `2 ^ 32`. -/
def u32_add (a b : Nat) : Nat := (a + b) % UINT32_MOD

/-- Subtraction of two `uint32_t` values: the difference reduced modulo
`2 ^ 32`, so that `a - b` with `a < b` wraps around. -/
def u32_sub (a b : Nat) : Nat := (a + (UINT32_MOD - b % UINT32_MOD)) % UINT32_MOD

/-- The value an `int` conversion (`%d`) reads from the 32 bits of a
`uint32_t`: two's complement. -/
def int_of_u32 (x : Nat) : Int :=
  if x % UINT32_MOD < 2147483648 then (x % UINT32_MOD : Nat)
  else (x % UINT32_MOD : Nat) - 4294967296

/-! ## Data model -/

/-- The tagged union `Option_u32`: tag `Option_Some` carries the `some` member
of the union, tag `Option_None` carries nothing. -/
inductive Option_u32 where
  | Option_Some (some : Nat)
  | Option_None
  deriving DecidableEq

/-- The struct `Range`: three `uint32_t` fields. -/
structure Range where
  start : Nat
  stop : Nat
  current : Nat
  deriving DecidableEq

/-- Every field of the struct holds a `uint32_t` value. -/
def Range.wf (r : Range) : Prop :=
  r.start < UINT32_MOD ∧ r.stop < UINT32_MOD ∧ r.current < UINT32_MOD

instance (r : Range) : Decidable r.wf := by
  unfold Range.wf; infer_instance

/-! ## Operations -/

/-- `Range_new`: the designated initialiser sets `start`, `stop` and sets
`current` to `start`. -/
def Range_new (start stop : Nat) : Range :=
  { start := start, stop := stop, current := start }

/-- `Range_next`: the call receives the struct by pointer; the embedding returns
the `Option_u32` result together with the struct after the call. -/
def Range_next (self : Range) : Option_u32 × Range :=
  if self.current < self.stop then
    (Option_u32.Option_Some self.current, { self with current := u32_add self.current 1 })
  else
    (Option_u32.Option_None, self)

/-- The struct after `n` successive calls of `Range_next`. -/
def Range_next_iter : Nat → Range → Range
  | 0, r => r
  | n + 1, r => Range_next_iter n (Range_next r).2

/-- The result of call number `k` (counted from 0) in a run of successive calls
of `Range_next`. -/
def Range_next_nth (r : Range) (k : Nat) : Option_u32 :=
  (Range_next (Range_next_iter k r)).1

/-- `fibonacci`: direct recursion; both subtractions and the addition are
`uint32_t` operations. -/
def fibonacci (n : Nat) : Nat :=
  if n = 0 then 1
  else if n = 1 then 1
  else u32_add (fibonacci (u32_sub n 1)) (fibonacci (u32_sub n 2))
termination_by n
decreasing_by
  all_goals simp only [u32_sub, UINT32_MOD]
  all_goals omega

/-- The success code of `stdlib.h`. -/
def EXIT_SUCCESS : Nat := 0

/-- What `printf("%d\n", x)` writes for a `uint32_t` argument `x`. -/
def printf_d (x : Nat) : String := toString (int_of_u32 x) ++ "\n"

/-- The `while (1)` loop of `main`. `fuel` bounds the number of calls of
`Range_next`; the loop returns the lines written when it reaches `break`,
and `none` when the bound is used up before that. -/
def main_loop : Nat → Range → List String → Option (List String)
  | 0, _, _ => none
  | fuel + 1, range, out =>
    match Range_next range with
    | (Option_u32.Option_None, _) => some out
    | (Option_u32.Option_Some v, range') =>
      main_loop fuel range' (out ++ [printf_d (fibonacci v)])

/-- `main`: the lines written to standard output and the return value. -/
def main (fuel : Nat) : Option (List String × Nat) :=
  (main_loop fuel (Range_new 0 10) []).map (fun out => (out, EXIT_SUCCESS))

/-- The loop pattern of `main` with the body reduced to recording the value:
the values `Range_next` produces before its first `Option_None`, with `fuel`
bounding the number of calls. -/
def Range_drain : Nat → Range → Option (List Nat)
  | 0, _ => none
  | fuel + 1, range =>
    match Range_next range with
    | (Option_u32.Option_None, _) => some []
    | (Option_u32.Option_Some v, range') => (Range_drain fuel range').map (fun vs => v :: vs)

/-- The true, unbounded values `fibonacci` is compared with: the sequence
`T 0 = T 1 = 1`, `T n = T (n - 1) + T (n - 2)` over the natural numbers. -/
def T : Nat → Nat
  | 0 => 1
  | 1 => 1
  | n + 2 => T (n + 1) + T n

/-- The recursion of `fibonacci` with the depth of nested calls bounded by
`fuel`: the same branches, subtractions and addition as the source, and `none`
when a call would need more nesting than `fuel` allows. -/
def fibonacci_fuel : Nat → Nat → Option Nat
  | 0, _ => none
  | fuel + 1, n =>
    if n = 0 then some 1
    else if n = 1 then some 1
    else
      match fibonacci_fuel fuel (u32_sub n 1), fibonacci_fuel fuel (u32_sub n 2) with
      | some a, some b => some (u32_add a b)
      | _, _ => none

/-- The textbook sequence `F 0 = 0`, `F 1 = 1`, `F k = F (k - 1) + F (k - 2)`
over the natural numbers. -/
def F : Nat → Nat
  | 0 => 0
  | 1 => 1
  | k + 2 => F (k + 1) + F k

/-! ## Auxiliary facts: machine integers -/

theorem UINT32_MOD_eq : UINT32_MOD = 2 ^ 32 := by
  unfold UINT32_MOD; norm_num

theorem u32_add_one_of_lt {c s : Nat} (hc : c < s) (hs : s < UINT32_MOD) :
    u32_add c 1 = c + 1 := by
  unfold u32_add
  exact Nat.mod_eq_of_lt (by omega)

/-! ## Auxiliary facts: the iterator -/

theorem Range_next_of_lt (r : Range) (h : r.current < r.stop) :
    Range_next r
      = (Option_u32.Option_Some r.current, { r with current := u32_add r.current 1 }) := by
  unfold Range_next; rw [if_pos h]

theorem Range_next_of_not_lt (r : Range) (h : ¬ r.current < r.stop) :
    Range_next r = (Option_u32.Option_None, r) := by
  unfold Range_next; rw [if_neg h]

theorem Range_next_fst_none_iff (r : Range) :
    (Range_next r).1 = Option_u32.Option_None ↔ r.stop ≤ r.current := by
  by_cases h : r.current < r.stop
  · rw [Range_next_of_lt r h]
    constructor
    · intro hh; cases hh
    · intro hh; omega
  · rw [Range_next_of_not_lt r h]
    constructor
    · intro _; omega
    · intro _; rfl

theorem Range_next_wf (r : Range) (hwf : r.wf) : (Range_next r).2.wf := by
  by_cases h : r.current < r.stop
  · rw [Range_next_of_lt r h]
    obtain ⟨h1, h2, _⟩ := hwf
    refine ⟨h1, h2, ?_⟩
    show u32_add r.current 1 < UINT32_MOD
    rw [u32_add_one_of_lt h h2]; omega
  · rw [Range_next_of_not_lt r h]; exact hwf

theorem Range_next_iter_wf (n : Nat) (r : Range) (hwf : r.wf) : (Range_next_iter n r).wf := by
  induction n generalizing r with
  | zero => exact hwf
  | succ n ih => exact ih _ (Range_next_wf r hwf)

theorem Range_next_iter_succ (n : Nat) (r : Range) :
    Range_next_iter (n + 1) r = (Range_next (Range_next_iter n r)).2 := by
  induction n generalizing r with
  | zero => rfl
  | succ n ih =>
    show Range_next_iter (n + 1) (Range_next r).2 = _
    rw [ih]; rfl

/-- One call on a cursor at or below a `uint32_t` bound `stop`: the cursor moves
up by one unless it is at `stop` already. -/
theorem Range_next_snd_of_le (r : Range) (hs : r.stop < UINT32_MOD)
    (hc : r.current ≤ r.stop) :
    (Range_next r).2 = { r with current := min (r.current + 1) r.stop } := by
  by_cases h : r.current < r.stop
  · rw [Range_next_of_lt r h, u32_add_one_of_lt h hs]
    have : min (r.current + 1) r.stop = r.current + 1 := by omega
    rw [this]
  · rw [Range_next_of_not_lt r h]
    have : min (r.current + 1) r.stop = r.current := by omega
    rw [this]

/-- The cursor after `n` calls, started at or below a `uint32_t` bound `stop`. -/
theorem Range_next_iter_of_le (n : Nat) (r : Range) (hs : r.stop < UINT32_MOD)
    (hc : r.current ≤ r.stop) :
    Range_next_iter n r = { r with current := min (r.current + n) r.stop } := by
  induction n generalizing r with
  | zero =>
    show r = _
    have : min (r.current + 0) r.stop = r.current := by omega
    rw [this]
  | succ n ih =>
    show Range_next_iter n (Range_next r).2 = _
    have h1 : min (r.current + 1) r.stop ≤ r.stop := by omega
    rw [Range_next_snd_of_le r hs hc, ih ⟨r.start, r.stop, min (r.current + 1) r.stop⟩ hs h1]
    have h2 : min (min (r.current + 1) r.stop + n) r.stop = min (r.current + (n + 1)) r.stop := by
      omega
    show Range.mk _ _ (min (min (r.current + 1) r.stop + n) r.stop) = _
    rw [h2]

/-- Once the cursor is at or past `stop`, no number of calls changes the struct. -/
theorem Range_next_iter_of_stop_le (n : Nat) (r : Range) (h : r.stop ≤ r.current) :
    Range_next_iter n r = r := by
  induction n with
  | zero => rfl
  | succ n ih =>
    show Range_next_iter n (Range_next r).2 = r
    rw [Range_next_of_not_lt r (by omega)]; exact ih

/-- The values collected by the loop from a cursor at or below a `uint32_t`
bound `stop`, given enough calls. -/
theorem Range_drain_of_le (fuel : Nat) (r : Range) (hs : r.stop < UINT32_MOD)
    (hc : r.current ≤ r.stop) (hf : r.stop - r.current < fuel) :
    Range_drain fuel r = some (List.range' r.current (r.stop - r.current)) := by
  induction fuel generalizing r with
  | zero => omega
  | succ fuel ih =>
    by_cases h : r.current < r.stop
    · have hstep := Range_next_of_lt r h
      rw [u32_add_one_of_lt h hs] at hstep
      unfold Range_drain
      rw [hstep]
      show Option.map _ (Range_drain fuel _) = _
      have h1 : r.current + 1 ≤ r.stop := by omega
      have h2 : r.stop - (r.current + 1) < fuel := by omega
      rw [ih ⟨r.start, r.stop, r.current + 1⟩ hs h1 h2]
      show some (r.current :: List.range' (r.current + 1) (r.stop - (r.current + 1))) = _
      have : r.stop - r.current = (r.stop - (r.current + 1)) + 1 := by omega
      rw [this, List.range'_succ]
    · unfold Range_drain
      rw [Range_next_of_not_lt r h]
      have : r.stop - r.current = 0 := by omega
      rw [this]; rfl

/-- With too few calls allowed the loop does not reach its exit. -/
theorem Range_drain_of_fuel_le (fuel : Nat) (r : Range) (hs : r.stop < UINT32_MOD)
    (hc : r.current ≤ r.stop) (hf : fuel ≤ r.stop - r.current) :
    Range_drain fuel r = none := by
  induction fuel generalizing r with
  | zero => rfl
  | succ fuel ih =>
    have h : r.current < r.stop := by omega
    have hstep := Range_next_of_lt r h
    rw [u32_add_one_of_lt h hs] at hstep
    unfold Range_drain
    rw [hstep]
    show Option.map _ (Range_drain fuel _) = _
    have h1 : r.current + 1 ≤ r.stop := by omega
    have h2 : fuel ≤ r.stop - (r.current + 1) := by omega
    rw [ih ⟨r.start, r.stop, r.current + 1⟩ hs h1 h2]
    rfl

/-- One call never lowers the cursor of a struct of `uint32_t` fields. -/
theorem Range_next_current_le (r : Range) (hwf : r.wf) :
    r.current ≤ (Range_next r).2.current := by
  by_cases h : r.current < r.stop
  · rw [Range_next_of_lt r h]
    show r.current ≤ u32_add r.current 1
    rw [u32_add_one_of_lt h hwf.2.1]; omega
  · rw [Range_next_of_not_lt r h]

theorem Range_next_iter_current_mono (r : Range) (hwf : r.wf) {m n : Nat} (h : m ≤ n) :
    (Range_next_iter m r).current ≤ (Range_next_iter n r).current := by
  induction n with
  | zero =>
    have : m = 0 := by omega
    rw [this]
  | succ n ih =>
    by_cases hm : m = n + 1
    · rw [hm]
    · rw [Range_next_iter_succ]
      exact Nat.le_trans (ih (by omega))
        (Range_next_current_le _ (Range_next_iter_wf n r hwf))

/-! ## Auxiliary facts: `fibonacci` -/

theorem fibonacci_zero : fibonacci 0 = 1 := by
  rw [fibonacci]; simp

theorem fibonacci_one : fibonacci 1 = 1 := by
  rw [fibonacci]; simp

/-- Unfolding of the recursive branch: for a `uint32_t` argument `n ≥ 2` neither
subtraction wraps. -/
theorem fibonacci_step (n : Nat) (h2 : 2 ≤ n) (hn : n < UINT32_MOD) :
    fibonacci n = (fibonacci (n - 1) + fibonacci (n - 2)) % UINT32_MOD := by
  have e1 : u32_sub n 1 = n - 1 := by
    simp only [u32_sub, UINT32_MOD] at *; omega
  have e2 : u32_sub n 2 = n - 2 := by
    simp only [u32_sub, UINT32_MOD] at *; omega
  rw [fibonacci, if_neg (by omega), if_neg (by omega), e1, e2, u32_add]

theorem fibonacci_eq_T_mod (n : Nat) (hn : n < UINT32_MOD) :
    fibonacci n = T n % UINT32_MOD := by
  induction n using Nat.strong_induction_on with
  | _ n ih =>
    match n, ih, hn with
    | 0, _, _ => rw [fibonacci_zero]; rfl
    | 1, _, _ => rw [fibonacci_one]; rfl
    | k + 2, ih, hn =>
      rw [fibonacci_step (k + 2) (by omega) hn]
      have e1 : k + 2 - 1 = k + 1 := by omega
      have e2 : k + 2 - 2 = k := by omega
      rw [e1, e2, ih (k + 1) (by omega) (by omega), ih k (by omega) (by omega)]
      show _ = (T (k + 1) + T k) % UINT32_MOD
      exact (Nat.add_mod _ _ _).symm

theorem T_le_succ (n : Nat) : T n ≤ T (n + 1) := by
  cases n with
  | zero => exact Nat.le_refl 1
  | succ n =>
    show T (n + 1) ≤ T (n + 1) + T n
    omega

theorem T_mono {m n : Nat} (h : m ≤ n) : T m ≤ T n := by
  induction n with
  | zero =>
    have : m = 0 := by omega
    rw [this]
  | succ n ih =>
    by_cases hm : m = n + 1
    · rw [hm]
    · exact Nat.le_trans (ih (by omega)) (T_le_succ n)

theorem T_46 : T 46 = 2971215073 := by decide

theorem T_47 : T 47 = 4807526976 := by decide

theorem fibonacci_lt (n : Nat) (hn : n < UINT32_MOD) : fibonacci n < UINT32_MOD := by
  rw [fibonacci_eq_T_mod n hn]
  exact Nat.mod_lt _ (by unfold UINT32_MOD; omega)

/-- The result is the true value exactly for arguments up to 46. -/
theorem fibonacci_eq_T_iff (n : Nat) (hn : n < UINT32_MOD) :
    fibonacci n = T n ↔ n ≤ 46 := by
  constructor
  · intro h
    by_contra hgt
    have h47 : T 47 ≤ T n := T_mono (by omega)
    have hlt := fibonacci_lt n hn
    rw [T_47] at h47
    rw [h] at hlt
    unfold UINT32_MOD at hlt
    omega
  · intro h
    have h46 : T n ≤ T 46 := T_mono h
    rw [T_46] at h46
    rw [fibonacci_eq_T_mod n hn]
    exact Nat.mod_eq_of_lt (by unfold UINT32_MOD; omega)

/-! ## Auxiliary facts: the driver loop -/

/-- Allowing more calls does not change what a finished loop has written. -/
theorem main_loop_fuel_add (fuel extra : Nat) (range : Range) (out res : List String)
    (h : main_loop fuel range out = some res) :
    main_loop (fuel + extra) range out = some res := by
  induction fuel generalizing range out with
  | zero => cases h
  | succ fuel ih =>
    have e : fuel + 1 + extra = (fuel + extra) + 1 := by omega
    rw [e]
    unfold main_loop at h ⊢
    by_cases hlt : range.current < range.stop
    · rw [Range_next_of_lt range hlt] at h ⊢
      exact ih _ _ h
    · rw [Range_next_of_not_lt range hlt] at h ⊢
      exact h

/-! ## The claims -/

/-- C1: for `start ≤ stop` (both `uint32_t`), call number `k` (from 0) of
`Range_next` on `Range_new start stop` returns `Option_Some (start + k)` for
each `k < stop - start` and `Option_None` for every later `k`; the values
collected before the first `Option_None` are the ascending list of
`start, …, stop - 1`, each exactly once. -/
theorem C1_range_yields_interval (start stop : Nat) (hle : start ≤ stop)
    (hstop : stop < 2 ^ 32) :
    (∀ k, k < stop - start →
        Range_next_nth (Range_new start stop) k = Option_u32.Option_Some (start + k))
    ∧ (∀ k, stop - start ≤ k →
        Range_next_nth (Range_new start stop) k = Option_u32.Option_None)
    ∧ (∀ fuel, stop - start < fuel →
        Range_drain fuel (Range_new start stop) = some (List.range' start (stop - start)))
    ∧ (List.range' start (stop - start)).Nodup
    ∧ (∀ v, v ∈ List.range' start (stop - start) ↔ start ≤ v ∧ v < stop) := by
  rw [← UINT32_MOD_eq] at hstop
  have hs : (Range_new start stop).stop < UINT32_MOD := hstop
  have hc : (Range_new start stop).current ≤ (Range_new start stop).stop := hle
  refine ⟨?_, ?_, ?_, ?_, ?_⟩
  · intro k hk
    unfold Range_next_nth
    rw [Range_next_iter_of_le k _ hs hc]
    have e : min ((Range_new start stop).current + k) (Range_new start stop).stop = start + k := by
      show min (start + k) stop = start + k
      omega
    rw [e, Range_next_of_lt _ (by show start + k < stop; omega)]
  · intro k hk
    unfold Range_next_nth
    rw [Range_next_iter_of_le k _ hs hc]
    have e : min ((Range_new start stop).current + k) (Range_new start stop).stop = stop := by
      show min (start + k) stop = stop
      omega
    rw [e, Range_next_of_not_lt _ (by show ¬ stop < stop; omega)]
  · intro fuel hf
    exact Range_drain_of_le fuel _ hs hc hf
  · exact List.nodup_range' start (stop - start)
  · intro v
    rw [List.mem_range'_1]
    omega

/-- C1 at `start = 3`, `stop = 7`. -/
theorem C1_range_yields_interval_witness :
    Range_next_nth (Range_new 3 7) 2 = Option_u32.Option_Some (3 + 2)
    ∧ Range_next_nth (Range_new 3 7) 4 = Option_u32.Option_None
    ∧ Range_drain 5 (Range_new 3 7) = some [3, 4, 5, 6] :=
  have h := C1_range_yields_interval 3 7 (by decide) (by norm_num)
  ⟨h.1 2 (by decide), h.2.1 4 (by decide), h.2.2.1 5 (by decide)⟩

/-- C2: one call of `Range_next` on a struct of `uint32_t` fields: when
`current < stop` it returns `Option_Some current` and leaves `current + 1` in
the cursor; otherwise it returns `Option_None` and the cursor is unchanged. -/
theorem C2_range_next_step (r : Range) (hwf : r.wf) :
    (r.current < r.stop →
        (Range_next r).1 = Option_u32.Option_Some r.current
        ∧ (Range_next r).2.current = r.current + 1)
    ∧ (r.stop ≤ r.current →
        (Range_next r).1 = Option_u32.Option_None
        ∧ (Range_next r).2.current = r.current) := by
  constructor
  · intro h
    rw [Range_next_of_lt r h]
    exact ⟨rfl, u32_add_one_of_lt h hwf.2.1⟩
  · intro h
    rw [Range_next_of_not_lt r (by omega)]
    exact ⟨rfl, rfl⟩

/-- C2 at the struct `{start = 0, stop = 10, current = 4}` and at the exhausted
struct `{start = 0, stop = 10, current = 10}`. -/
theorem C2_range_next_step_witness :
    ((Range_next ⟨0, 10, 4⟩).1 = Option_u32.Option_Some 4
      ∧ (Range_next ⟨0, 10, 4⟩).2.current = 4 + 1)
    ∧ ((Range_next ⟨0, 10, 10⟩).1 = Option_u32.Option_None
      ∧ (Range_next ⟨0, 10, 10⟩).2.current = 10) :=
  ⟨(C2_range_next_step ⟨0, 10, 4⟩ (by decide)).1 (by decide),
   (C2_range_next_step ⟨0, 10, 10⟩ (by decide)).2 (by decide)⟩

/-- C3: when a call of `Range_next` on `r` returns `Option_None`, then for every
`n` each of the next `n` calls returns `Option_None` too and the struct after
those `n` calls is `r` itself. -/
theorem C3_exhaustion_idempotent (r : Range)
    (h : (Range_next r).1 = Option_u32.Option_None) (n : Nat) :
    (∀ k, k < n → Range_next_nth (Range_next r).2 k = Option_u32.Option_None)
    ∧ Range_next_iter n (Range_next r).2 = r := by
  have hge : r.stop ≤ r.current := (Range_next_fst_none_iff r).1 h
  have hsame : (Range_next r).2 = r := by
    rw [Range_next_of_not_lt r (by omega)]
  rw [hsame]
  refine ⟨?_, Range_next_iter_of_stop_le n r hge⟩
  intro k _
  unfold Range_next_nth
  rw [Range_next_iter_of_stop_le k r hge]
  exact h

/-- C3 at the exhausted struct `{start = 2, stop = 5, current = 5}` with
`n = 3`. -/
theorem C3_exhaustion_idempotent_witness :
    (Range_next ⟨2, 5, 5⟩).1 = Option_u32.Option_None
    ∧ Range_next_nth (Range_next ⟨2, 5, 5⟩).2 2 = Option_u32.Option_None
    ∧ Range_next_iter 3 (Range_next ⟨2, 5, 5⟩).2 = ⟨2, 5, 5⟩ :=
  have h := C3_exhaustion_idempotent ⟨2, 5, 5⟩ (by decide) 3
  ⟨by decide, h.1 2 (by decide), h.2⟩

/-- C4: for `start ≥ stop` the first call of `Range_next` on
`Range_new start stop` returns `Option_None` and leaves the struct equal to
`Range_new start stop`; the collected sequence is empty. -/
theorem C4_empty_range (start stop : Nat) (h : stop ≤ start) :
    Range_next (Range_new start stop) = (Option_u32.Option_None, Range_new start stop)
    ∧ Range_next_nth (Range_new start stop) 0 = Option_u32.Option_None
    ∧ (∀ fuel, Range_drain (fuel + 1) (Range_new start stop) = some []) := by
  have hstep : Range_next (Range_new start stop)
      = (Option_u32.Option_None, Range_new start stop) :=
    Range_next_of_not_lt _ (by show ¬ start < stop; omega)
  refine ⟨hstep, ?_, ?_⟩
  · show (Range_next (Range_new start stop)).1 = _
    rw [hstep]
  · intro fuel
    unfold Range_drain
    rw [hstep]

/-- C4 at `start = 9`, `stop = 4` and at `start = stop = 6`. -/
theorem C4_empty_range_witness :
    (Range_next (Range_new 9 4) = (Option_u32.Option_None, Range_new 9 4)
      ∧ Range_drain 1 (Range_new 9 4) = some [])
    ∧ Range_next (Range_new 6 6) = (Option_u32.Option_None, Range_new 6 6) :=
  ⟨⟨(C4_empty_range 9 4 (by decide)).1, (C4_empty_range 9 4 (by decide)).2.2 0⟩,
   (C4_empty_range 6 6 (by decide)).1⟩

/-- C5: `fibonacci 0 = 1`, `fibonacci 1 = 1`, and for every `uint32_t` argument
`n ≥ 2`, `fibonacci n` is the `uint32_t` sum (modulo `2 ^ 32`) of
`fibonacci (n - 1)` and `fibonacci (n - 2)`. -/
theorem C5_fibonacci_recurrence :
    fibonacci 0 = 1 ∧ fibonacci 1 = 1
    ∧ ∀ n, 2 ≤ n → n < 2 ^ 32 →
        fibonacci n = (fibonacci (n - 1) + fibonacci (n - 2)) % 2 ^ 32 := by
  refine ⟨fibonacci_zero, fibonacci_one, ?_⟩
  intro n h2 hn
  rw [← UINT32_MOD_eq] at hn ⊢
  exact fibonacci_step n h2 hn

/-- C5 at `n = 7`. -/
theorem C5_fibonacci_recurrence_witness :
    fibonacci 7 = (fibonacci (7 - 1) + fibonacci (7 - 2)) % 2 ^ 32 :=
  C5_fibonacci_recurrence.2.2 7 (by decide) (by norm_num)

/-- The loop of `main` writes one line per value the iterator produces before
its first `Option_None`, in that order. -/
theorem main_loop_eq_drain (fuel : Nat) (range : Range) (out : List String) :
    main_loop fuel range out
      = (Range_drain fuel range).map
          (fun vs => out ++ vs.map (fun v => printf_d (fibonacci v))) := by
  induction fuel generalizing range out with
  | zero => rfl
  | succ fuel ih =>
    unfold main_loop Range_drain
    by_cases hlt : range.current < range.stop
    · rw [Range_next_of_lt range hlt]
      show main_loop fuel _ _ = Option.map _ (Option.map _ (Range_drain fuel _))
      rw [ih]
      cases Range_drain fuel { range with current := u32_add range.current 1 } with
      | none => rfl
      | some vs =>
        show some (out ++ [printf_d (fibonacci range.current)]
            ++ vs.map (fun v => printf_d (fibonacci v)))
          = some (out ++ (range.current :: vs).map (fun v => printf_d (fibonacci v)))
        rw [List.map_cons, List.append_assoc]
        rfl
    · rw [Range_next_of_not_lt range hlt]
      show some out = some (out ++ [])
      rw [List.append_nil]

theorem fibonacci_upto_10 :
    fibonacci 2 = 2 ∧ fibonacci 3 = 3 ∧ fibonacci 4 = 5 ∧ fibonacci 5 = 8
    ∧ fibonacci 6 = 13 ∧ fibonacci 7 = 21 ∧ fibonacci 8 = 34 ∧ fibonacci 9 = 55
    ∧ fibonacci 10 = 89 := by
  simp [fibonacci_step, fibonacci_zero, fibonacci_one, UINT32_MOD]

theorem main_loop_eleven :
    main_loop 11 (Range_new 0 10) []
      = some ["1\n", "1\n", "2\n", "3\n", "5\n", "8\n", "13\n", "21\n", "34\n", "55\n"] := by
  obtain ⟨f2, f3, f4, f5, f6, f7, f8, f9, _⟩ := fibonacci_upto_10
  have hd : Range_drain 11 (Range_new 0 10) = some [0, 1, 2, 3, 4, 5, 6, 7, 8, 9] := by decide
  rw [main_loop_eq_drain, hd]
  simp only [Option.map_some', List.map_cons, List.map_nil, List.nil_append, fibonacci_zero,
    fibonacci_one, f2, f3, f4, f5, f6, f7, f8, f9]
  decide

theorem main_loop_ten : main_loop 10 (Range_new 0 10) [] = none := by
  have hd : Range_drain 10 (Range_new 0 10) = none := by decide
  rw [main_loop_eq_drain, hd]
  rfl

/-- C6: the driver, `Range_new(0, 10)` followed by calls of `Range_next` until
`Option_None` with `fibonacci` of every produced value printed, writes the ten
lines `1, 1, 2, 3, 5, 8, 13, 21, 34, 55` in this order; the loop ends at the
eleventh call of `Range_next` (ten calls do not end it, eleven or more do) and
`main` returns `EXIT_SUCCESS`. -/
theorem C6_main_end_to_end :
    main 10 = none
    ∧ (∀ extra, main (11 + extra)
        = some (["1\n", "1\n", "2\n", "3\n", "5\n", "8\n", "13\n", "21\n", "34\n", "55\n"],
            EXIT_SUCCESS))
    ∧ (Range_drain 11 (Range_new 0 10)).map (fun vs => vs.map fibonacci)
        = some [1, 1, 2, 3, 5, 8, 13, 21, 34, 55]
    ∧ Range_next_nth (Range_new 0 10) 10 = Option_u32.Option_None
    ∧ EXIT_SUCCESS = 0 := by
  refine ⟨?_, ?_, ?_, by decide, rfl⟩
  · unfold main
    rw [main_loop_ten]
    rfl
  · intro extra
    unfold main
    rw [main_loop_fuel_add 11 extra _ _ _ main_loop_eleven]
    rfl
  · obtain ⟨f2, f3, f4, f5, f6, f7, f8, f9, _⟩ := fibonacci_upto_10
    have hd : Range_drain 11 (Range_new 0 10) = some [0, 1, 2, 3, 4, 5, 6, 7, 8, 9] := by decide
    rw [hd]
    simp only [Option.map_some', List.map_cons, List.map_nil, fibonacci_zero,
      fibonacci_one, f2, f3, f4, f5, f6, f7, f8, f9]

/-- C7: `fibonacci 0 = 1`, `fibonacci 1 = 1`, `fibonacci 2 = 2`,
`fibonacci 5 = 8` and `fibonacci 10 = 89`. -/
theorem C7_fibonacci_values :
    fibonacci 0 = 1 ∧ fibonacci 1 = 1 ∧ fibonacci 2 = 2 ∧ fibonacci 5 = 8
    ∧ fibonacci 10 = 89 :=
  ⟨fibonacci_zero, fibonacci_one, fibonacci_upto_10.1, fibonacci_upto_10.2.2.2.1,
    fibonacci_upto_10.2.2.2.2.2.2.2.2⟩

/-- C8: for every struct `r` of `uint32_t` fields the cursor after one call of
`Range_next` is at least the cursor before it, and it is a `uint32_t` value
again; hence along the calls made on `Range_new start stop` the cursor never
decreases. -/
theorem C8_cursor_monotone :
    (∀ r : Range, r.wf →
        r.current ≤ (Range_next r).2.current ∧ (Range_next r).2.current < 2 ^ 32)
    ∧ (∀ start stop, start < 2 ^ 32 → stop < 2 ^ 32 → ∀ m n, m ≤ n →
        (Range_next_iter m (Range_new start stop)).current
          ≤ (Range_next_iter n (Range_new start stop)).current) := by
  constructor
  · intro r hwf
    refine ⟨Range_next_current_le r hwf, ?_⟩
    rw [← UINT32_MOD_eq]
    exact (Range_next_wf r hwf).2.2
  · intro start stop hstart hstop m n hmn
    rw [← UINT32_MOD_eq] at hstart hstop
    exact Range_next_iter_current_mono (Range_new start stop) ⟨hstart, hstop, hstart⟩ hmn

/-- C8 at the struct `{start = 0, stop = 4294967295, current = 4294967294}`,
whose cursor is one below the largest `stop`, and along the run on
`Range_new 3 5` between calls 1 and 4. -/
theorem C8_cursor_monotone_witness :
    (4294967294 ≤ (Range_next ⟨0, 4294967295, 4294967294⟩).2.current
      ∧ (Range_next ⟨0, 4294967295, 4294967294⟩).2.current < 2 ^ 32)
    ∧ (Range_next_iter 1 (Range_new 3 5)).current
        ≤ (Range_next_iter 4 (Range_new 3 5)).current :=
  ⟨C8_cursor_monotone.1 ⟨0, 4294967295, 4294967294⟩ (by decide),
   C8_cursor_monotone.2 3 5 (by norm_num) (by norm_num) 1 4 (by decide)⟩

/-- C9 as stated fails at `start = stop = 2 ^ 32 - 1`, which satisfies
`start ≤ stop`: the first call returns `Option_None`, nothing is collected, and
no call ever returns `Option_Some (2 ^ 32 - 2)`, so no last produced value
`2 ^ 32 - 2` exists. -/
theorem C9_counterexample :
    4294967295 ≤ 4294967295
    ∧ Range_next_nth (Range_new 4294967295 4294967295) 0 = Option_u32.Option_None
    ∧ Range_drain 1 (Range_new 4294967295 4294967295) = some []
    ∧ ¬ ∃ k, Range_next_nth (Range_new 4294967295 4294967295) k
          = Option_u32.Option_Some 4294967294 := by
  refine ⟨Nat.le_refl _, by decide, by decide, ?_⟩
  rintro ⟨k, hk⟩
  unfold Range_next_nth at hk
  rw [Range_next_iter_of_stop_le k _ (Nat.le_refl _)] at hk
  exact absurd hk (by decide)

/-- C9, amended: on a struct of `uint32_t` fields `Range_next` increments the
cursor only when `current < stop`, so `current + 1 ≤ stop ≤ 2 ^ 32 - 1` and the
increment does not wrap; when `current ≥ stop` the call returns `Option_None`
and leaves the struct as it is, so the cursor is never incremented past `stop`,
in one call or in any number of calls. For `stop = 2 ^ 32 - 1`: when
`start < stop` the last value produced is `2 ^ 32 - 2` (returned by call number
`stop - start - 1`, the last element of the collected list); when
`start ≤ stop` the cursor after `stop - start` or more calls is `2 ^ 32 - 1`,
not 0, and each of those later calls returns `Option_None`. -/
theorem C9_overflow_guard (r : Range) (hwf : r.wf) (start : Nat) :
    (r.current < r.stop →
        r.current + 1 ≤ r.stop ∧ r.stop ≤ 2 ^ 32 - 1
        ∧ (Range_next r).2.current = r.current + 1)
    ∧ (r.current ≤ r.stop → (Range_next r).2.current ≤ r.stop)
    ∧ (r.stop ≤ r.current → Range_next r = (Option_u32.Option_None, r))
    ∧ ((Range_next r).2.current ≠ r.current ↔ r.current < r.stop)
    ∧ r.current ≤ (Range_next r).2.current
    ∧ ((Range_next r).2.current ≠ r.current →
        (Range_next r).2.current = r.current + 1 ∧ (Range_next r).2.current ≤ r.stop)
    ∧ (∀ n, r.current ≤ (Range_next_iter n r).current
        ∧ ((Range_next_iter n r).current ≠ r.current →
            (Range_next_iter n r).current ≤ r.stop))
    ∧ (start < 4294967295 →
        Range_next_nth (Range_new start 4294967295) (4294967295 - start - 1)
          = Option_u32.Option_Some 4294967294
        ∧ ∀ fuel, 4294967295 - start < fuel →
            ∃ vs, Range_drain fuel (Range_new start 4294967295) = some vs
              ∧ vs.getLast? = some 4294967294)
    ∧ (start ≤ 4294967295 → ∀ n, 4294967295 - start ≤ n →
        (Range_next_iter n (Range_new start 4294967295)).current = 4294967295
        ∧ Range_next_nth (Range_new start 4294967295) n = Option_u32.Option_None) := by
  have hmax : (4294967295 : Nat) < UINT32_MOD := by decide
  have hs := hwf.2.1
  have hinc : r.current < r.stop → (Range_next r).2.current = r.current + 1 := by
    intro h
    rw [Range_next_of_lt r h]
    exact u32_add_one_of_lt h hs
  have hkeep : ¬ r.current < r.stop → Range_next r = (Option_u32.Option_None, r) :=
    Range_next_of_not_lt r
  refine ⟨?_, ?_, ?_, ?_, ?_, ?_, ?_, ?_, ?_⟩
  · intro h
    refine ⟨h, ?_, hinc h⟩
    rw [← UINT32_MOD_eq]; omega
  · intro h
    rw [Range_next_snd_of_le r hs h]
    show min (r.current + 1) r.stop ≤ r.stop
    omega
  · intro h
    exact hkeep (by omega)
  · constructor
    · intro hne
      by_contra hnlt
      rw [hkeep hnlt] at hne
      exact hne rfl
    · intro h
      rw [hinc h]
      omega
  · by_cases h : r.current < r.stop
    · rw [hinc h]; omega
    · rw [hkeep h]
  · intro hne
    by_cases h : r.current < r.stop
    · rw [hinc h]
      exact ⟨rfl, h⟩
    · rw [hkeep h] at hne
      exact absurd rfl hne
  · intro n
    by_cases h : r.current ≤ r.stop
    · rw [Range_next_iter_of_le n r hs h]
      refine ⟨?_, fun _ => ?_⟩
      · show r.current ≤ min (r.current + n) r.stop
        omega
      · show min (r.current + n) r.stop ≤ r.stop
        omega
    · rw [Range_next_iter_of_stop_le n r (by omega)]
      exact ⟨Nat.le_refl _, fun hne => absurd rfl hne⟩
  · intro hlt
    have hs : (Range_new start 4294967295).stop < UINT32_MOD := hmax
    have hc : (Range_new start 4294967295).current ≤ (Range_new start 4294967295).stop :=
      Nat.le_of_lt hlt
    constructor
    · unfold Range_next_nth
      rw [Range_next_iter_of_le _ _ hs hc]
      have e : min ((Range_new start 4294967295).current + (4294967295 - start - 1))
          (Range_new start 4294967295).stop = 4294967294 := by
        show min (start + (4294967295 - start - 1)) 4294967295 = 4294967294
        omega
      rw [e, Range_next_of_lt _ (by show 4294967294 < 4294967295; omega)]
    · intro fuel hf
      refine ⟨_, Range_drain_of_le fuel _ hs hc hf, ?_⟩
      show (List.range' start (4294967295 - start)).getLast? = some 4294967294
      rw [List.getLast?_range', if_neg (by omega)]
      congr 1
      omega
  · intro hle n hn
    have hs : (Range_new start 4294967295).stop < UINT32_MOD := hmax
    have hc : (Range_new start 4294967295).current ≤ (Range_new start 4294967295).stop := hle
    have e : min ((Range_new start 4294967295).current + n)
        (Range_new start 4294967295).stop = 4294967295 := by
      show min (start + n) 4294967295 = 4294967295
      omega
    constructor
    · rw [Range_next_iter_of_le n _ hs hc, e]
    · unfold Range_next_nth
      rw [Range_next_iter_of_le n _ hs hc, e,
        Range_next_of_not_lt _ (by show ¬ 4294967295 < 4294967295; omega)]

/-- C9, amended, at the struct `{start = 0, stop = 4294967295,
current = 4294967294}` with `start = 4294967293`, and at the struct
`Range_new 4294967295 5`, whose cursor is past `stop` at the largest
`uint32_t`: the call leaves it there. -/
theorem C9_overflow_guard_witness :
    (4294967294 + 1 ≤ 4294967295 ∧ 4294967295 ≤ 2 ^ 32 - 1
      ∧ (Range_next ⟨0, 4294967295, 4294967294⟩).2.current = 4294967294 + 1)
    ∧ Range_next_nth (Range_new 4294967293 4294967295) (4294967295 - 4294967293 - 1)
        = Option_u32.Option_Some 4294967294
    ∧ ((Range_next_iter 5 (Range_new 4294967293 4294967295)).current = 4294967295
      ∧ Range_next_nth (Range_new 4294967293 4294967295) 5 = Option_u32.Option_None)
    ∧ Range_next (Range_new 4294967295 5)
        = (Option_u32.Option_None, Range_new 4294967295 5) :=
  have h := C9_overflow_guard ⟨0, 4294967295, 4294967294⟩ (by decide) 4294967293
  have g := C9_overflow_guard (Range_new 4294967295 5) (by decide) 0
  ⟨h.1 (by decide), (h.2.2.2.2.2.2.2.1 (by decide)).1,
   h.2.2.2.2.2.2.2.2 (by decide) 5 (by decide), g.2.2.1 (by decide)⟩

/-- C10: for every `uint32_t` argument `n`, `fibonacci n` is `T n` reduced
modulo `2 ^ 32`; it equals `T n` exactly when `n ≤ 46`, which is exactly when
`T n` fits in 32 bits; `fibonacci 46 = 2971215073`, `T 47 = 4807526976` is at
least `2 ^ 32`, and `fibonacci 47 = 512559680`. -/
theorem C10_fibonacci_wraparound (n : Nat) (hn : n < 2 ^ 32) :
    fibonacci n = T n % 2 ^ 32
    ∧ (fibonacci n = T n ↔ n ≤ 46)
    ∧ (T n < 2 ^ 32 ↔ n ≤ 46)
    ∧ fibonacci 46 = 2971215073
    ∧ T 47 = 4807526976
    ∧ 2 ^ 32 ≤ T 47
    ∧ fibonacci 47 = 512559680 := by
  rw [← UINT32_MOD_eq] at hn ⊢
  refine ⟨fibonacci_eq_T_mod n hn, fibonacci_eq_T_iff n hn, ?_, ?_, T_47, ?_, ?_⟩
  · constructor
    · intro h
      exact (fibonacci_eq_T_iff n hn).1
        (by rw [fibonacci_eq_T_mod n hn]; exact Nat.mod_eq_of_lt h)
    · intro h
      have h46 : T n ≤ T 46 := T_mono h
      rw [T_46] at h46
      unfold UINT32_MOD
      omega
  · rw [fibonacci_eq_T_mod 46 (by decide), T_46]
    decide
  · rw [T_47]; decide
  · rw [fibonacci_eq_T_mod 47 (by decide), T_47]
    decide

/-- C10 at `n = 47`, the first argument whose true value does not fit. -/
theorem C10_fibonacci_wraparound_witness :
    fibonacci 47 = T 47 % 2 ^ 32 ∧ (fibonacci 47 = T 47 ↔ 47 ≤ 46) :=
  have h := C10_fibonacci_wraparound 47 (by norm_num)
  ⟨h.1, h.2.1⟩

/-! ## Auxiliary facts for the frame, termination and refinement claims -/

theorem u32_sub_of_le {a b : Nat} (hb : b ≤ a) (ha : a < UINT32_MOD) :
    u32_sub a b = a - b := by
  simp only [u32_sub, UINT32_MOD] at *
  omega

theorem Range_next_start_stop (r : Range) :
    (Range_next r).2.start = r.start ∧ (Range_next r).2.stop = r.stop := by
  by_cases h : r.current < r.stop
  · rw [Range_next_of_lt r h]; exact ⟨rfl, rfl⟩
  · rw [Range_next_of_not_lt r h]; exact ⟨rfl, rfl⟩

theorem Range_next_iter_start_stop (n : Nat) (r : Range) :
    (Range_next_iter n r).start = r.start ∧ (Range_next_iter n r).stop = r.stop := by
  induction n generalizing r with
  | zero => exact ⟨rfl, rfl⟩
  | succ n ih =>
    show (Range_next_iter n (Range_next r).2).start = _
      ∧ (Range_next_iter n (Range_next r).2).stop = _
    rw [(ih (Range_next r).2).1, (ih (Range_next r).2).2]
    exact Range_next_start_stop r

/-- Nesting deeper than the argument is never needed. -/
theorem fibonacci_fuel_of_lt (fuel n : Nat) (hn : n < UINT32_MOD) (hf : n < fuel) :
    fibonacci_fuel fuel n = some (fibonacci n) := by
  induction fuel generalizing n with
  | zero => omega
  | succ fuel ih =>
    unfold fibonacci_fuel
    by_cases h0 : n = 0
    · rw [if_pos h0, h0, fibonacci_zero]
    · by_cases h1 : n = 1
      · rw [if_neg h0, if_pos h1, h1, fibonacci_one]
      · rw [if_neg h0, if_neg h1, u32_sub_of_le (by omega : 1 ≤ n) hn,
          u32_sub_of_le (by omega : 2 ≤ n) hn,
          ih (n - 1) (by omega) (by omega), ih (n - 2) (by omega) (by omega),
          fibonacci_step n (by omega) hn]
        rfl

/-- Below `2 ^ 31` the signed reading of the 32 bits is the unsigned value. -/
theorem int_of_u32_of_lt (x : Nat) (hx : x < 2147483648) : int_of_u32 x = (x : Int) := by
  have hmod : x % UINT32_MOD = x := Nat.mod_eq_of_lt (by unfold UINT32_MOD; omega)
  unfold int_of_u32
  rw [hmod, if_pos hx]

theorem printf_d_of_lt (x : Nat) (hx : x < 2147483648) :
    printf_d x = toString x ++ "\n" := by
  unfold printf_d
  rw [int_of_u32_of_lt x hx]
  rfl

theorem T_eq_F_succ (n : Nat) : T n = F (n + 1) := by
  induction n using Nat.strong_induction_on with
  | _ n ih =>
    match n, ih with
    | 0, _ => rfl
    | 1, _ => rfl
    | k + 2, ih =>
      show T (k + 1) + T k = F (k + 2) + F (k + 1)
      rw [ih (k + 1) (by omega), ih k (by omega)]

theorem F_eq_fib (n : Nat) : F n = Nat.fib n := by
  induction n using Nat.strong_induction_on with
  | _ n ih =>
    match n, ih with
    | 0, _ => rfl
    | 1, _ => rfl
    | k + 2, ih =>
      show F (k + 1) + F k = Nat.fib (k + 2)
      rw [ih (k + 1) (by omega), ih k (by omega), Nat.fib_add_two, Nat.add_comm]

theorem fibonacci_lt_of_lt_10 (v : Nat) (hv : v < 10) : fibonacci v < 2147483648 := by
  have hu : v < UINT32_MOD := by unfold UINT32_MOD; omega
  have h9 : T v ≤ T 9 := T_mono (by omega)
  have e9 : T 9 = 55 := by decide
  rw [(fibonacci_eq_T_iff v hu).2 (by omega)]
  omega

/-- C11: for every pair of arguments `Range_new start stop` is the struct
with `start` field `start`, `stop` field `stop` and `current` field `start`;
for `uint32_t` arguments all three fields hold `uint32_t` values. -/
theorem C11_range_new_fields (start stop : Nat) :
    (Range_new start stop).start = start
    ∧ (Range_new start stop).stop = stop
    ∧ (Range_new start stop).current = start
    ∧ Range_new start stop = ⟨start, stop, start⟩
    ∧ (start < 2 ^ 32 → stop < 2 ^ 32 → (Range_new start stop).wf) := by
  refine ⟨rfl, rfl, rfl, rfl, ?_⟩
  intro hstart hstop
  rw [← UINT32_MOD_eq] at hstart hstop
  exact ⟨hstart, hstop, hstart⟩

/-- C11 at `start = 7`, `stop = 3`, a pair with `start > stop`. -/
theorem C11_range_new_fields_witness :
    (Range_new 7 3).current = 7 ∧ (Range_new 7 3).wf :=
  have h := C11_range_new_fields 7 3
  ⟨h.2.2.1, h.2.2.2.2 (by norm_num) (by norm_num)⟩

/-- C12: a call of `Range_next` on any struct `r` leaves the `start` and `stop`
fields as they were, whichever result it returns, and so does any number of
calls; the struct after the call is `r` with at most `current` replaced. -/
theorem C12_range_next_frame (r : Range) :
    (Range_next r).2.start = r.start
    ∧ (Range_next r).2.stop = r.stop
    ∧ (Range_next r).2 = { r with current := (Range_next r).2.current }
    ∧ (∀ n, (Range_next_iter n r).start = r.start ∧ (Range_next_iter n r).stop = r.stop) := by
  refine ⟨(Range_next_start_stop r).1, (Range_next_start_stop r).2, ?_,
    fun n => Range_next_iter_start_stop n r⟩
  by_cases h : r.current < r.stop
  · rw [Range_next_of_lt r h]
  · rw [Range_next_of_not_lt r h]

/-- C13: for every `uint32_t` argument `n` the recursion of `fibonacci` ends:
nesting of depth `n + 1` is enough to return the value of `fibonacci n`, which
is a `uint32_t` again. The recursive branch is entered only with `n ≥ 2`, where
`n - 1` and `n - 2` do not wrap and are smaller than `n`. -/
theorem C13_fibonacci_total (n : Nat) (hn : n < 2 ^ 32) :
    (∀ fuel, n < fuel → fibonacci_fuel fuel n = some (fibonacci n))
    ∧ fibonacci n < 2 ^ 32
    ∧ (n ≠ 0 → n ≠ 1 →
        2 ≤ n ∧ u32_sub n 1 = n - 1 ∧ u32_sub n 2 = n - 2
        ∧ u32_sub n 1 < n ∧ u32_sub n 2 < n
        ∧ fibonacci n = u32_add (fibonacci (u32_sub n 1)) (fibonacci (u32_sub n 2))) := by
  rw [← UINT32_MOD_eq] at hn ⊢
  refine ⟨fun fuel hf => fibonacci_fuel_of_lt fuel n hn hf, fibonacci_lt n hn, ?_⟩
  intro h0 h1
  have e1 : u32_sub n 1 = n - 1 := u32_sub_of_le (by omega) hn
  have e2 : u32_sub n 2 = n - 2 := u32_sub_of_le (by omega) hn
  refine ⟨by omega, e1, e2, by omega, by omega, ?_⟩
  rw [e1, e2, fibonacci_step n (by omega) hn]
  rfl

/-- C13 at `n = 4294967295`, the largest `uint32_t`, and nesting depth
`4294967296`. -/
theorem C13_fibonacci_total_witness :
    fibonacci_fuel 4294967296 4294967295 = some (fibonacci 4294967295)
    ∧ u32_sub 4294967295 2 = 4294967295 - 2 :=
  have h := C13_fibonacci_total 4294967295 (by norm_num)
  ⟨h.1 4294967296 (by decide), (h.2.2 (by decide) (by decide)).2.2.1⟩

/-- C14: for every value `v` of the driver's range, `0 ≤ v < 10`,
`fibonacci v < 2 ^ 31`, so the signed reading `%d` makes of the 32 bits is the
unsigned value and the line printed is the decimal representation of
`fibonacci v` followed by a newline; the lines `main` writes are these, for
`v = 0, …, 9` in order. -/
theorem C14_printed_lines_decimal (v : Nat) (hv : v < 10) :
    fibonacci v < 2 ^ 31
    ∧ int_of_u32 (fibonacci v) = (fibonacci v : Int)
    ∧ printf_d (fibonacci v) = toString (fibonacci v) ++ "\n"
    ∧ (∀ extra, main (11 + extra)
        = some ((List.range 10).map (fun w => toString (fibonacci w) ++ "\n"),
            EXIT_SUCCESS)) := by
  have hlt := fibonacci_lt_of_lt_10 v hv
  refine ⟨by norm_num; exact hlt, int_of_u32_of_lt _ hlt, printf_d_of_lt _ hlt, ?_⟩
  intro extra
  unfold main
  rw [main_loop_fuel_add 11 extra _ _ _ main_loop_eleven]
  obtain ⟨f2, f3, f4, f5, f6, f7, f8, f9, _⟩ := fibonacci_upto_10
  simp only [List.range, List.range.loop, List.map_cons, List.map_nil, fibonacci_zero,
    fibonacci_one, f2, f3, f4, f5, f6, f7, f8, f9, Option.map_some']
  decide

/-- C14 at `v = 9`, the last value of the driver's range. -/
theorem C14_printed_lines_decimal_witness :
    fibonacci 9 < 2 ^ 31 ∧ printf_d (fibonacci 9) = toString (fibonacci 9) ++ "\n" :=
  have h := C14_printed_lines_decimal 9 (by decide)
  ⟨h.1, h.2.2.1⟩

/-- C15: for `start ≤ stop` (both `uint32_t`) the struct reached from
`Range_new start stop` by `k` calls of `Range_next` has `start ≤ current ≤ stop`
and `current = start + min k (stop - start)`, with `start` and `stop` as
constructed; the next call returns `Option_None` exactly when `current = stop`,
and the loop collects exactly `stop - current` further values from it. -/
theorem C15_reachable_bounds (start stop : Nat) (hle : start ≤ stop)
    (hstop : stop < 2 ^ 32) (k : Nat) :
    start ≤ (Range_next_iter k (Range_new start stop)).current
    ∧ (Range_next_iter k (Range_new start stop)).current ≤ stop
    ∧ (Range_next_iter k (Range_new start stop)).current = start + min k (stop - start)
    ∧ (Range_next_iter k (Range_new start stop)).start = start
    ∧ (Range_next_iter k (Range_new start stop)).stop = stop
    ∧ ((Range_next (Range_next_iter k (Range_new start stop))).1 = Option_u32.Option_None
        ↔ (Range_next_iter k (Range_new start stop)).current = stop)
    ∧ (∀ fuel, stop - (Range_next_iter k (Range_new start stop)).current < fuel →
        ∃ vs, Range_drain fuel (Range_next_iter k (Range_new start stop)) = some vs
          ∧ vs.length = stop - (Range_next_iter k (Range_new start stop)).current) := by
  rw [← UINT32_MOD_eq] at hstop
  have hs : (Range_new start stop).stop < UINT32_MOD := hstop
  have hc : (Range_new start stop).current ≤ (Range_new start stop).stop := hle
  have hiter : Range_next_iter k (Range_new start stop)
      = ⟨start, stop, min (start + k) stop⟩ := Range_next_iter_of_le k _ hs hc
  rw [hiter]
  have hcur : min (start + k) stop ≤ stop := by omega
  refine ⟨?_, hcur, ?_, rfl, rfl, ?_, ?_⟩
  · show start ≤ min (start + k) stop
    omega
  · show min (start + k) stop = start + min k (stop - start)
    omega
  · rw [Range_next_fst_none_iff]
    show stop ≤ min (start + k) stop ↔ min (start + k) stop = stop
    omega
  · intro fuel hf
    refine ⟨_, Range_drain_of_le fuel ⟨start, stop, min (start + k) stop⟩ hstop hcur hf, ?_⟩
    rw [List.length_range']

/-- C15 at `start = 3`, `stop = 7` after `k = 2` calls and after `k = 9`
calls. -/
theorem C15_reachable_bounds_witness :
    (Range_next_iter 2 (Range_new 3 7)).current = 3 + min 2 (7 - 3)
    ∧ (Range_next_iter 9 (Range_new 3 7)).current = 3 + min 9 (7 - 3)
    ∧ ((Range_next (Range_next_iter 9 (Range_new 3 7))).1 = Option_u32.Option_None
        ↔ (Range_next_iter 9 (Range_new 3 7)).current = 7) :=
  ⟨(C15_reachable_bounds 3 7 (by decide) (by norm_num) 2).2.2.1,
   (C15_reachable_bounds 3 7 (by decide) (by norm_num) 9).2.2.1,
   (C15_reachable_bounds 3 7 (by decide) (by norm_num) 9).2.2.2.2.2.1⟩

/-- C16: for every `uint32_t` pair the run of calls of `Range_next` on
`Range_new start stop` reaches `Option_None`. When `start < stop` the first
`stop - start` calls return a value and call number `stop - start + 1` returns
`Option_None`, so the loop of the driver ends with `stop - start + 1` calls and
not with fewer; when `start ≥ stop` the first call returns `Option_None` and the
loop ends with one call. -/
theorem C16_loop_terminates (start stop : Nat) (hstop : stop < 2 ^ 32) :
    (start < stop →
        (∀ k, k < stop - start →
          Range_next_nth (Range_new start stop) k ≠ Option_u32.Option_None)
        ∧ Range_next_nth (Range_new start stop) (stop - start) = Option_u32.Option_None
        ∧ Range_drain (stop - start) (Range_new start stop) = none
        ∧ Range_drain (stop - start + 1) (Range_new start stop)
            = some (List.range' start (stop - start))
        ∧ main_loop (stop - start) (Range_new start stop) [] = none
        ∧ (main_loop (stop - start + 1) (Range_new start stop) []).isSome = true)
    ∧ (stop ≤ start →
        Range_next_nth (Range_new start stop) 0 = Option_u32.Option_None
        ∧ Range_drain 0 (Range_new start stop) = none
        ∧ Range_drain 1 (Range_new start stop) = some []
        ∧ main_loop 0 (Range_new start stop) [] = none
        ∧ main_loop 1 (Range_new start stop) [] = some []) := by
  rw [← UINT32_MOD_eq] at hstop
  have hs : (Range_new start stop).stop < UINT32_MOD := hstop
  constructor
  · intro hlt
    have hc : (Range_new start stop).current ≤ (Range_new start stop).stop :=
      Nat.le_of_lt hlt
    have hnone : Range_drain (stop - start) (Range_new start stop) = none :=
      Range_drain_of_fuel_le _ _ hs hc (Nat.le_refl _)
    have hsome : Range_drain (stop - start + 1) (Range_new start stop)
        = some (List.range' start (stop - start)) :=
      Range_drain_of_le _ _ hs hc (Nat.lt_succ_self _)
    refine ⟨?_, ?_, hnone, hsome, ?_, ?_⟩
    · intro k hk
      unfold Range_next_nth
      rw [Range_next_iter_of_le k _ hs hc, Ne, Range_next_fst_none_iff]
      show ¬ stop ≤ min (start + k) stop
      omega
    · unfold Range_next_nth
      rw [Range_next_iter_of_le _ _ hs hc, Range_next_fst_none_iff]
      show stop ≤ min (start + (stop - start)) stop
      omega
    · rw [main_loop_eq_drain, hnone]; rfl
    · rw [main_loop_eq_drain, hsome]; rfl
  · intro hge
    have hstep : Range_next (Range_new start stop)
        = (Option_u32.Option_None, Range_new start stop) :=
      Range_next_of_not_lt _ (by show ¬ start < stop; omega)
    refine ⟨?_, rfl, ?_, rfl, ?_⟩
    · show (Range_next (Range_new start stop)).1 = _
      rw [hstep]
    · unfold Range_drain
      rw [hstep]
    · unfold main_loop
      rw [hstep]

/-- C16 at `start = 3`, `stop = 7` (five calls) and at `start = 7`, `stop = 3`
(one call). -/
theorem C16_loop_terminates_witness :
    (Range_next_nth (Range_new 3 7) 3 ≠ Option_u32.Option_None
      ∧ Range_next_nth (Range_new 3 7) (7 - 3) = Option_u32.Option_None
      ∧ Range_drain (7 - 3) (Range_new 3 7) = none
      ∧ Range_drain (7 - 3 + 1) (Range_new 3 7) = some (List.range' 3 (7 - 3)))
    ∧ Range_next_nth (Range_new 7 3) 0 = Option_u32.Option_None
    ∧ main_loop 1 (Range_new 7 3) [] = some [] :=
  have h1 := (C16_loop_terminates 3 7 (by norm_num)).1 (by decide)
  have h2 := (C16_loop_terminates 7 3 (by norm_num)).2 (by decide)
  ⟨⟨h1.1 3 (by decide), h1.2.1, h1.2.2.1, h1.2.2.2.1⟩, h2.1, h2.2.2.2.2⟩

/-- C17: with `F` the textbook sequence `F 0 = 0`, `F 1 = 1`,
`F k = F (k - 1) + F (k - 2)` (the sequence `Nat.fib`), for every `uint32_t`
argument `n`, `fibonacci n = F (n + 1) mod 2 ^ 32`, and `fibonacci n = F (n + 1)`
holds exactly for `n ≤ 46`. -/
theorem C17_fibonacci_shifted_textbook (n : Nat) (hn : n < 2 ^ 32) :
    fibonacci n = F (n + 1) % 2 ^ 32
    ∧ (fibonacci n = F (n + 1) ↔ n ≤ 46)
    ∧ F (n + 1) = Nat.fib (n + 1) := by
  rw [← UINT32_MOD_eq] at hn ⊢
  rw [← T_eq_F_succ n]
  exact ⟨fibonacci_eq_T_mod n hn, fibonacci_eq_T_iff n hn, by rw [T_eq_F_succ, F_eq_fib]⟩

/-- C17 at `n = 46`, the last argument with an exact result, and at `n = 47`. -/
theorem C17_fibonacci_shifted_textbook_witness :
    (fibonacci 46 = F (46 + 1) ↔ 46 ≤ 46) ∧ fibonacci 47 = F (47 + 1) % 2 ^ 32 :=
  ⟨(C17_fibonacci_shifted_textbook 46 (by norm_num)).2.1,
   (C17_fibonacci_shifted_textbook 47 (by norm_num)).1⟩
end Opyl
